import Mathlib

/-!
# Verification of the eventcatalog-sdk versioned resource store (domain operations)

Shallow embedding of `src/domains.ts` and of the versioned resource store it
is built on.  The store internals (`getResource`, `writeResource`,
`versionResource`, `rmResourceById`, `findFileById`, `uniqueVersions`) live in
`src/internal/*` which is not part of the provided sources; those definitions
are modelled from the specification (sections 3, 4 and 6) and are marked
`Modelled from the spec:` in their doc comments.  Everything else is a direct
translation of `src/domains.ts`.

The filesystem under the catalog root is modelled as an association list from
paths (lists of segments) to entries (a parsed metadata document, or an
attached file).  List order is the stable traversal order the resolver uses.
-/

/-- A semantic version `major.minor.patch`. -/
structure SemVer where
  major : Nat
  minor : Nat
  patch : Nat
deriving DecidableEq, Repr

/-- Renders a semantic version as the directory segment used by the
versioning archiver (`versioned/<version>`). -/
def SemVer.str (v : SemVer) : String :=
  toString v.major ++ "." ++ toString v.minor ++ "." ++ toString v.patch

/-- A reference `{id, version}` from one resource to another (e.g. an entry of
a domain's `services` list). -/
structure Reference where
  id : String
  version : SemVer
deriving DecidableEq, Repr

/-- A domain resource record (`Domain` in `src/types`): metadata fields, the
markdown body, and the optional `services` reference list (`undefined` in
TypeScript is modelled as `none`). -/
structure Domain where
  id : String
  name : String
  version : SemVer
  summary : String
  markdown : String
  services : Option (List Reference)
deriving DecidableEq, Repr

/-- An entry of a resource directory: the parsed metadata document of a
resource, or an attached auxiliary file. -/
inductive Entry where
  | doc (d : Domain)
  | file (content : String)
deriving DecidableEq, Repr

/-- A filesystem path below the catalog root, as a list of segments. -/
abbrev FPath := List String

/-- The catalog tree: a finite map from paths to entries, in stable traversal
order. -/
abbrev FS := List (FPath × Entry)

/-- The error kinds of the store (spec section 7). -/
inductive StoreErr where
  | NotFound
  | AlreadyExists
  | ArchiveConflict
  | MalformedResource
deriving DecidableEq, Repr

/-- Two references are duplicates when both `id` and `version` match
(the comparison `s.id === service.id && s.version === service.version` used
throughout the source). -/
def sameRef (a b : Reference) : Bool :=
  a.id == b.id && a.version == b.version

/-- Modelled from the spec: `uniqueVersions` (in `src/internal/utils`, not
part of the provided sources) deduplicates a reference list; entries are
duplicates when both `id` and `version` match, the first occurrence wins and
the order of the remaining entries is preserved (spec section 4.3). -/
def uniqueVersions : List Reference → List Reference
  | [] => []
  | r :: rs => r :: (uniqueVersions rs).filter (fun s => !(sameRef s r))

theorem sameRef_iff_eq (a b : Reference) : sameRef a b = true ↔ a = b := by
  cases a; cases b
  simp [sameRef, Reference.mk.injEq, and_comm]

theorem sameRef_self (a : Reference) : sameRef a a = true := by
  simp [sameRef_iff_eq]

theorem sameRef_comm (a b : Reference) : sameRef a b = sameRef b a := by
  by_cases h : a = b
  · subst h; rfl
  · have h1 : sameRef a b ≠ true := by
      simp [sameRef_iff_eq]; exact h
    have h2 : sameRef b a ≠ true := by
      simp [sameRef_iff_eq]; exact fun e => h e.symm
    simp [Bool.not_eq_true] at h1 h2
    rw [h1, h2]

theorem uniqueVersions_sublist (l : List Reference) :
    (uniqueVersions l).Sublist l := by
  induction l with
  | nil => simp [uniqueVersions]
  | cons r rs ih =>
    rw [uniqueVersions]
    exact ((List.filter_sublist _).trans ih).cons₂ r

theorem uniqueVersions_pairwise (l : List Reference) :
    (uniqueVersions l).Pairwise (fun a b => sameRef a b = false) := by
  induction l with
  | nil => simp [uniqueVersions]
  | cons r rs ih =>
    rw [uniqueVersions]
    refine List.Pairwise.cons ?_ (ih.filter _)
    intro b hb
    have hfb := (List.mem_filter.mp hb).2
    simp only [Bool.not_eq_true'] at hfb
    rw [sameRef_comm]; exact hfb

theorem uniqueVersions_nodup (l : List Reference) :
    (uniqueVersions l).Nodup := by
  refine List.Pairwise.imp ?_ (uniqueVersions_pairwise l)
  intro a b hab he
  subst he
  rw [sameRef_self a] at hab
  simp at hab

theorem uniqueVersions_covers (l : List Reference) :
    ∀ a ∈ l, ∃ b ∈ uniqueVersions l, sameRef a b = true := by
  induction l with
  | nil => intro a ha; cases ha
  | cons r rs ih =>
    intro a ha
    rw [uniqueVersions]
    rcases List.mem_cons.mp ha with rfl | h
    · exact ⟨a, List.mem_cons_self _ _, sameRef_self a⟩
    · obtain ⟨b, hb, hab⟩ := ih a h
      by_cases hbr : sameRef b r = true
      · refine ⟨r, List.mem_cons_self _ _, ?_⟩
        rw [sameRef_iff_eq] at hab hbr ⊢
        rw [hab, hbr]
      · refine ⟨b, List.mem_cons_of_mem _ ?_, hab⟩
        refine List.mem_filter.mpr ⟨hb, ?_⟩
        simp only [Bool.not_eq_true']
        simp only [Bool.not_eq_true] at hbr
        exact hbr

/-- A path is an archived (`versioned/...`) location when it passes through a
`versioned` segment (storage layout, spec section 6). -/
def isVersionedPath (p : FPath) : Bool :=
  p.contains "versioned"

/-- All metadata documents in the tree that declare the given id (the resolver
matches by the declared `id` field, not by directory name; spec section 4.1). -/
def docsWithId (fs : FS) (id : String) : List (FPath × Domain) :=
  fs.filterMap (fun pe =>
    match pe.2 with
    | .doc d => if d.id = id then some (pe.1, d) else none
    | .file _ => none)

/-- The Primary candidates for an id: declared documents outside any
`versioned` directory. -/
def primaryCandidates (fs : FS) (id : String) : List (FPath × Domain) :=
  (docsWithId fs id).filter (fun pd => !(isVersionedPath pd.1))

/-- The Archived candidates for an id: declared documents beneath a
`versioned` directory. -/
def archivedCandidates (fs : FS) (id : String) : List (FPath × Domain) :=
  (docsWithId fs id).filter (fun pd => isVersionedPath pd.1)

/-- Lexicographic order on semantic versions, as a boolean. -/
def SemVer.le (a b : SemVer) : Bool :=
  Nat.blt a.major b.major ||
    (a.major == b.major &&
      (Nat.blt a.minor b.minor ||
        (a.minor == b.minor && Nat.ble a.patch b.patch)))

/-- A semantic-version range (the range forms named by the spec:
`0.0.x`-style wildcards and caret ranges). -/
inductive VRange where
  | patchWild (major minor : Nat)
  | caret (v : SemVer)
deriving DecidableEq, Repr

/-- Range satisfaction for the version matcher (spec section 4.1). -/
def VRange.satisfies : VRange → SemVer → Bool
  | .patchWild ma mi, v => v.major == ma && v.minor == mi
  | .caret c, v => c.major == v.major && SemVer.le c v

/-- The version argument of the store operations: the sentinel `"latest"`
(also used when the argument is omitted), an exact version string, or a
semantic-version range (spec section 4.1). -/
inductive VersionToken where
  | latest
  | exact (v : SemVer)
  | range (r : VRange)
deriving DecidableEq, Repr

/-- Modelled from the spec: the Path Resolver and Version Matcher
(spec section 4.1; implemented by `src/internal/utils`'s `findFileById`,
not part of the provided sources).  `latest` resolves to the Primary location;
an exact version searches Primary first then Archived for an exact declared
version match; a range returns the highest-satisfying candidate. -/
def resolvePath (fs : FS) (id : String) : VersionToken → Option (FPath × Domain)
  | .latest => (primaryCandidates fs id).head?
  | .exact v =>
      (primaryCandidates fs id ++ archivedCandidates fs id).find?
        (fun pd => pd.2.version == v)
  | .range r =>
      ((primaryCandidates fs id ++ archivedCandidates fs id).filter
        (fun pd => r.satisfies pd.2.version)).foldl
        (fun best pd =>
          match best with
          | none => some pd
          | some b =>
              if SemVer.le b.2.version pd.2.version && !(b.2.version == pd.2.version)
              then some pd else some b)
        none

/-- Modelled from the spec: `getResource` (in `src/internal/resources`, not
part of the provided sources) resolves the requested id and version and loads
the resource record; resolution failure surfaces as `NotFound`
(spec sections 4.1, 4.2). -/
def getResource (fs : FS) (id : String) (tok : VersionToken) :
    Except StoreErr Domain :=
  match resolvePath fs id tok with
  | some pd => .ok pd.2
  | none => .error .NotFound

/-- `getDomain` from `src/domains.ts`: `getResource` with type `domain`. -/
def getDomain (fs : FS) (id : String) (tok : VersionToken) :
    Except StoreErr Domain :=
  getResource fs id tok

/-- The canonical Primary path for a domain id: `<root>/domains/<id>`
(spec section 6). -/
def canonicalPath (root : FPath) (id : String) : FPath :=
  root ++ ["domains", id]

/-- Removes a directory and everything beneath it from the tree. -/
def eraseDir (fs : FS) (p : FPath) : FS :=
  fs.filter (fun pe => !(p.isPrefixOf pe.1))

/-- The write target: the caller-supplied path joined to the root, or the
canonical `<type>s/<id>` path (spec section 4.3). -/
def targetPath (root : FPath) (optPath : Option FPath) (id : String) : FPath :=
  match optPath with
  | some p => root ++ p
  | none => canonicalPath root id

/-- Whether the target directory already contains a resource (a metadata
document at that exact path). -/
def containsResource (fs : FS) (p : FPath) : Bool :=
  fs.any (fun pe =>
    match pe.2 with
    | .doc _ => pe.1 == p
    | .file _ => false)

/-- Modelled from the spec: `writeResource` (in `src/internal/resources`, not
part of the provided sources).  Target is the caller-supplied path or the
canonical `<type>s/<id>` path; writing into an occupied target without
`override` fails `AlreadyExists`; with `override` the prior directory contents
are fully replaced (spec section 4.3). -/
def writeResource (fs : FS) (root : FPath) (d : Domain)
    (optPath : Option FPath) (override : Bool) : Except StoreErr FS :=
  let target := targetPath root optPath d.id
  if containsResource fs target then
    if override then .ok (eraseDir fs target ++ [(target, .doc d)])
    else .error .AlreadyExists
  else .ok (fs ++ [(target, .doc d)])

/-- `writeDomain` from `src/domains.ts`: shallow-copies the record, replaces a
present `services` list by its deduplication, and hands the result to
`writeResource` with type `domain`. -/
def writeDomain (fs : FS) (root : FPath) (domain : Domain)
    (optPath : Option FPath) (override : Bool) : Except StoreErr FS :=
  let resource : Domain :=
    match domain.services with
    | some l => { domain with services := some (uniqueVersions l) }
    | none => domain
  writeResource fs root resource optPath override

/-- Modelled from the spec: `versionResource` (in `src/internal/resources`,
not part of the provided sources).  Resolves the Primary location for the id
(`NotFound` if absent), reads its declared version, and moves the entire
Primary directory — its document and attached files, but not the `versioned`
archive beneath it — to `<id>/versioned/<version>/`; fails `ArchiveConflict`
if that destination is already populated (spec section 4.4).
`archiveMove` relocates one entry of the tree accordingly: entries of the
Primary directory (excluding its `versioned` archive) move under the new
`versioned/<version>` destination, everything else stays put. -/
def archiveMove (p : FPath) (v : String) (pe : FPath × Entry) : FPath × Entry :=
  if p.isPrefixOf pe.1 && !((p ++ ["versioned"]).isPrefixOf pe.1)
  then (p ++ ["versioned", v] ++ pe.1.drop p.length, pe.2)
  else pe

def versionResource (fs : FS) (id : String) : Except StoreErr FS :=
  match resolvePath fs id .latest with
  | none => .error .NotFound
  | some (p, d) =>
    let dst := p ++ ["versioned", d.version.str]
    if fs.any (fun pe => dst.isPrefixOf pe.1) then .error .ArchiveConflict
    else .ok (fs.map (archiveMove p d.version.str))

/-- `versionDomain` from `src/domains.ts`. -/
def versionDomain (fs : FS) (id : String) : Except StoreErr FS :=
  versionResource fs id

/-- `fs.rm(path, { recursive: true })` as used by `rmDomain`: deletes the
directory at the path and everything beneath it recursively; a path that does
not exist fails (`NotFound`). -/
def fsRm (fs : FS) (p : FPath) : Except StoreErr FS :=
  if fs.any (fun pe => p.isPrefixOf pe.1) then .ok (eraseDir fs p)
  else .error .NotFound

/-- `rmDomain` from `src/domains.ts`: removes the directory at
`join(directory, path)` recursively. -/
def rmDomain (fs : FS) (root : FPath) (p : FPath) : Except StoreErr FS :=
  fsRm fs (root ++ p)

/-- Modelled from the spec: `rmResourceById` (in `src/internal/resources`,
not part of the provided sources).  Resolves the id and optional version as
the resolver does, then deletes the resolved directory and everything beneath
it recursively; resolution failure surfaces as `NotFound`
(spec section 4.6). -/
def rmResourceById (fs : FS) (id : String) (tok : VersionToken) :
    Except StoreErr FS :=
  match resolvePath fs id tok with
  | none => .error .NotFound
  | some (p, _) => .ok (eraseDir fs p)

/-- `rmDomainById` from `src/domains.ts`. -/
def rmDomainById (fs : FS) (id : String) (tok : VersionToken) :
    Except StoreErr FS :=
  rmResourceById fs id tok

/-- Modelled from the spec: `findFileById` (in `src/internal/utils`, not part
of the provided sources) locates the metadata file for an id and version
token using the resolver, returning nothing when resolution fails
(spec sections 4.1, 6). -/
def findFileById (fs : FS) (id : String) (tok : VersionToken) :
    Option (FPath × Domain) :=
  resolvePath fs id tok

/-- `domainHasVersion` from `src/domains.ts`: `!!file` on the result of
`findFileById`. -/
def domainHasVersion (fs : FS) (id : String) (tok : VersionToken) : Bool :=
  (findFileById fs id tok).isSome

/-- `addServiceToDomain` from `src/domains.ts`: fetches the domain, defaults a
missing `services` list to `[]`, returns early when an entry already matches
the given service by id and version, and otherwise appends the service,
removes the old domain and writes the new one. -/
def addServiceToDomain (fs : FS) (root : FPath) (id : String)
    (service : Reference) (tok : VersionToken) : Except StoreErr FS :=
  match getDomain fs id tok with
  | .error e => .error e
  | .ok domain0 =>
    let services0 :=
      match domain0.services with
      | none => []
      | some l => l
    if services0.any (fun s => s.id == service.id && s.version == service.version)
    then .ok fs
    else
      let domain1 := { domain0 with services := some (services0 ++ [service]) }
      match rmDomainById fs id tok with
      | .error e => .error e
      | .ok fs1 => writeDomain fs1 root domain1 none false

theorem mem_docsWithId {fs : FS} {id : String} {pd : FPath × Domain} :
    pd ∈ docsWithId fs id ↔ (pd.1, Entry.doc pd.2) ∈ fs ∧ pd.2.id = id := by
  constructor
  · intro h
    obtain ⟨pe, hpe, hf⟩ := List.mem_filterMap.mp h
    obtain ⟨q, e⟩ := pe
    cases e with
    | doc d =>
      by_cases hd : d.id = id
      · simp only [hd, if_pos rfl] at hf
        simp [hd] at hf
        subst hf
        exact ⟨hpe, hd⟩
      · simp [hd] at hf
    | file c => simp at hf
  · intro ⟨h1, h2⟩
    exact List.mem_filterMap.mpr ⟨(pd.1, .doc pd.2), h1, by simp [h2]⟩

theorem mem_primaryCandidates {fs : FS} {id : String} {pd : FPath × Domain} :
    pd ∈ primaryCandidates fs id ↔
      pd ∈ docsWithId fs id ∧ isVersionedPath pd.1 = false := by
  simp [primaryCandidates, List.mem_filter]

theorem mem_archivedCandidates {fs : FS} {id : String} {pd : FPath × Domain} :
    pd ∈ archivedCandidates fs id ↔
      pd ∈ docsWithId fs id ∧ isVersionedPath pd.1 = true := by
  simp [archivedCandidates, List.mem_filter]

theorem mem_eraseDir {fs : FS} {p : FPath} {pe : FPath × Entry} :
    pe ∈ eraseDir fs p ↔ pe ∈ fs ∧ p.isPrefixOf pe.1 = false := by
  simp [eraseDir, List.mem_filter]

theorem isPrefixOf_self (p : FPath) : p.isPrefixOf p = true :=
  List.isPrefixOf_iff_prefix.mpr (List.prefix_refl p)

theorem docsWithId_append (a b : FS) (id : String) :
    docsWithId (a ++ b) id = docsWithId a id ++ docsWithId b id := by
  simp [docsWithId, List.filterMap_append]

theorem primaryCandidates_append (a b : FS) (id : String) :
    primaryCandidates (a ++ b) id =
      primaryCandidates a id ++ primaryCandidates b id := by
  simp [primaryCandidates, docsWithId_append, List.filter_append]

theorem primaryCandidates_eraseDir {fs : FS} {id : String} {p : FPath}
    {d : Domain} (hp : primaryCandidates fs id = [(p, d)]) :
    primaryCandidates (eraseDir fs p) id = [] := by
  rw [List.eq_nil_iff_forall_not_mem]
  intro pd hpd
  obtain ⟨hdoc, hver⟩ := mem_primaryCandidates.mp hpd
  obtain ⟨hmem, hid⟩ := mem_docsWithId.mp hdoc
  obtain ⟨hfs, hpre⟩ := mem_eraseDir.mp hmem
  have hcand : pd ∈ primaryCandidates fs id :=
    mem_primaryCandidates.mpr ⟨mem_docsWithId.mpr ⟨hfs, hid⟩, hver⟩
  rw [hp] at hcand
  simp at hcand
  subst hcand
  simp only [isPrefixOf_self p] at hpre
  cases hpre

theorem primaryCandidates_single {p : FPath} {d : Domain} {id : String}
    (hid : d.id = id) (hver : isVersionedPath p = false) :
    primaryCandidates [(p, Entry.doc d)] id = [(p, d)] := by
  simp [primaryCandidates, docsWithId, hid, hver]

theorem containsResource_eraseDir (fs : FS) (p : FPath) :
    containsResource (eraseDir fs p) p = false := by
  rw [containsResource, List.any_eq_false]
  intro pe hpe
  obtain ⟨q, e⟩ := pe
  obtain ⟨_, hpre⟩ := mem_eraseDir.mp hpe
  cases e with
  | doc d =>
    simp only []
    intro hq
    simp at hq
    subst hq
    rw [isPrefixOf_self] at hpre
    cases hpre
  | file c => simp

theorem uniqueVersions_find? (l : List Reference) :
    ∀ a ∈ uniqueVersions l, l.find? (fun b => sameRef b a) = some a := by
  induction l with
  | nil => intro a ha; rw [uniqueVersions] at ha; cases ha
  | cons r rs ih =>
    intro a ha
    rw [uniqueVersions] at ha
    rcases List.mem_cons.mp ha with rfl | ha'
    · exact List.find?_cons_of_pos _ (sameRef_self a)
    · obtain ⟨hmem, hP⟩ := List.mem_filter.mp ha'
      simp only [Bool.not_eq_true'] at hP
      have hra : sameRef r a = false := by rw [sameRef_comm]; exact hP
      rw [List.find?_cons_of_neg _ (by simp [hra])]
      exact ih a hmem

theorem foldl_some_isSome {α : Type} (f : Option α → α → Option α)
    (hf : ∀ b x, ∃ y, f (some b) x = some y) :
    ∀ (l : List α) (b : α), (l.foldl f (some b)).isSome = true := by
  intro l
  induction l with
  | nil => intro b; rfl
  | cons x xs ih =>
    intro b
    rw [List.foldl_cons]
    obtain ⟨y, hy⟩ := hf b x
    rw [hy]
    exact ih y

theorem foldl_pick_isSome {α : Type} (f : Option α → α → Option α)
    (hf : ∀ b x, ∃ y, f (some b) x = some y)
    (hn : ∀ x, ∃ y, f none x = some y) (l : List α) :
    (l.foldl f none).isSome = true ↔ l ≠ [] := by
  cases l with
  | nil => simp
  | cons x xs =>
    rw [List.foldl_cons]
    obtain ⟨y, hy⟩ := hn x
    rw [hy]
    simp [foldl_some_isSome f hf xs y]

/-!
## A heap view of `writeDomain`'s copy discipline

TypeScript records and arrays are reference values.  To state that
`writeDomain` does not mutate its argument, object records and service arrays
live in explicit stores and the `services` field holds an array address.
`writeDomain` (src/domains.ts lines 72–79) allocates a shallow copy
`{ ...domain }` of the caller's record and, when a services array is present,
points the copy (and only the copy) at a freshly allocated deduplicated
array. -/

/-- A domain record as a heap object: plain fields plus the address of its
`services` array (`none` when the field is `undefined`). -/
structure DomainObj where
  id : String
  name : String
  version : SemVer
  summary : String
  markdown : String
  servicesRef : Option Nat
deriving DecidableEq, Repr

/-- The value an out-of-range object read returns; never relevant under the
validity hypotheses. -/
def noObj : DomainObj :=
  { id := "", name := "", version := ⟨0, 0, 0⟩, summary := "", markdown := "",
    servicesRef := none }

/-- The mutable stores: domain records and service arrays, addressed by
position. -/
structure JsHeap where
  objs : List DomainObj
  arrays : List (List Reference)
deriving DecidableEq, Repr

/-- Heap-level embedding of `writeDomain`'s preparation of the record it
serializes (src/domains.ts lines 72–79): read the record at `domainAddr`,
allocate the shallow copy `{ ...domain }`, and if a services array is present
redirect the copy's `services` field to a freshly allocated array holding the
deduplicated list.  Returns the new heap and the copy's address. -/
def writeDomainHeap (h : JsHeap) (domainAddr : Nat) : JsHeap × Nat :=
  let dom := h.objs.getD domainAddr noObj
  match dom.servicesRef with
  | none => ({ h with objs := h.objs ++ [dom] }, h.objs.length)
  | some a =>
    let arr := h.arrays.getD a []
    ({ objs := h.objs ++ [{ dom with servicesRef := some h.arrays.length }],
       arrays := h.arrays ++ [uniqueVersions arr] },
     h.objs.length)

theorem resolvePath_latest (fs : FS) (id : String) :
    resolvePath fs id .latest = (primaryCandidates fs id).head? := rfl

theorem resolvePath_exact (fs : FS) (id : String) (v : SemVer) :
    resolvePath fs id (.exact v) =
      (primaryCandidates fs id ++ archivedCandidates fs id).find?
        (fun pd => pd.2.version == v) := rfl

theorem resolvePath_range (fs : FS) (id : String) (r : VRange) :
    resolvePath fs id (.range r) =
      ((primaryCandidates fs id ++ archivedCandidates fs id).filter
        (fun pd => r.satisfies pd.2.version)).foldl
        (fun best pd =>
          match best with
          | none => some pd
          | some b =>
              if SemVer.le b.2.version pd.2.version && !(b.2.version == pd.2.version)
              then some pd else some b)
        none := rfl

/-- C2: `writeDomain` deduplicates a present `services` list before
serialization.  The stored record's list is `uniqueVersions` of the input
list: a sublist of the input (relative order preserved), in which each kept
entry is the first occurrence of its `(id, version)` pair in the input, every
input entry is represented, and no two entries share both `id` and
`version`. -/
theorem writeDomain_dedups_services (fs fs' : FS) (root : FPath)
    (domain : Domain) (optPath : Option FPath) (override : Bool)
    (l : List Reference)
    (hs : domain.services = some l)
    (hw : writeDomain fs root domain optPath override = .ok fs') :
    (targetPath root optPath domain.id,
      Entry.doc { domain with services := some (uniqueVersions l) }) ∈ fs' ∧
    (uniqueVersions l).Sublist l ∧
    (∀ a ∈ uniqueVersions l, l.find? (fun b => sameRef b a) = some a) ∧
    (∀ a ∈ l, ∃ b ∈ uniqueVersions l, sameRef a b = true) ∧
    List.Pairwise (fun a b => sameRef a b = false) (uniqueVersions l) := by
  refine ⟨?_, uniqueVersions_sublist l, uniqueVersions_find? l,
    uniqueVersions_covers l, uniqueVersions_pairwise l⟩
  rw [writeDomain, hs] at hw
  simp only [writeResource] at hw
  split at hw
  · split at hw
    · cases hw
      exact List.mem_append_right _ (List.mem_singleton.mpr rfl)
    · cases hw
  · cases hw
    exact List.mem_append_right _ (List.mem_singleton.mpr rfl)

/-- C4: writing a domain into a target that already contains a resource
fails `AlreadyExists` without `override` (nothing is merged), while the same
write with `override := true` succeeds and fully replaces the prior
directory contents: below the target only the freshly written document
remains, and entries outside the target are untouched. -/
theorem writeDomain_alreadyExists_override (fs : FS) (root : FPath)
    (domain : Domain) (optPath : Option FPath)
    (hc : containsResource fs (targetPath root optPath domain.id) = true) :
    writeDomain fs root domain optPath false = .error .AlreadyExists ∧
    ∃ fs' r, writeDomain fs root domain optPath true = .ok fs' ∧
      fs'.filter (fun pe => (targetPath root optPath domain.id).isPrefixOf pe.1) =
        [(targetPath root optPath domain.id, Entry.doc r)] ∧
      fs'.filter (fun pe => !((targetPath root optPath domain.id).isPrefixOf pe.1)) =
        fs.filter (fun pe => !((targetPath root optPath domain.id).isPrefixOf pe.1)) := by
  have main : ∀ r : Domain, r.id = domain.id →
      writeResource fs root r optPath false = .error .AlreadyExists ∧
      ∃ fs', writeResource fs root r optPath true = .ok fs' ∧
        fs'.filter (fun pe => (targetPath root optPath domain.id).isPrefixOf pe.1) =
          [(targetPath root optPath domain.id, Entry.doc r)] ∧
        fs'.filter (fun pe => !((targetPath root optPath domain.id).isPrefixOf pe.1)) =
          fs.filter (fun pe => !((targetPath root optPath domain.id).isPrefixOf pe.1)) := by
    intro r hr
    constructor
    · simp [writeResource, hr, hc]
    · refine ⟨eraseDir fs (targetPath root optPath domain.id) ++
        [(targetPath root optPath domain.id, Entry.doc r)], ?_, ?_, ?_⟩
      · simp [writeResource, hr, hc]
      · rw [List.filter_append]
        rw [eraseDir, List.filter_filter]
        simp [isPrefixOf_self]
      · rw [List.filter_append]
        rw [eraseDir, List.filter_filter]
        simp [isPrefixOf_self]
  cases hs : domain.services with
  | none =>
    have h := main domain rfl
    refine ⟨?_, ?_⟩
    · rw [writeDomain, hs]; exact h.1
    · obtain ⟨fs', h1, h2, h3⟩ := h.2
      exact ⟨fs', domain, by rw [writeDomain, hs]; exact h1, h2, h3⟩
  | some l =>
    have h := main { domain with services := some (uniqueVersions l) } rfl
    refine ⟨?_, ?_⟩
    · rw [writeDomain, hs]; exact h.1
    · obtain ⟨fs', h1, h2, h3⟩ := h.2
      exact ⟨fs', { domain with services := some (uniqueVersions l) },
        by rw [writeDomain, hs]; exact h1, h2, h3⟩

/-- C9: when the fetched domain's service list already contains an entry
matching the given service by both id and version, `addServiceToDomain`
returns before the remove and write steps: the resulting catalog state is
exactly the input state. -/
theorem addServiceToDomain_early_return (fs : FS) (root : FPath)
    (id : String) (service : Reference) (tok : VersionToken) (d : Domain)
    (hg : getDomain fs id tok = .ok d)
    (hex : (d.services.getD []).any
      (fun s => s.id == service.id && s.version == service.version) = true) :
    addServiceToDomain fs root id service tok = .ok fs := by
  rw [addServiceToDomain, hg]
  dsimp only
  cases hs : d.services with
  | none => rw [hs] at hex; simp at hex
  | some l =>
    rw [hs] at hex
    simp only [Option.getD_some] at hex
    simp [hex]

/-- C7: both remove variants delete the resolved directory and everything
beneath it recursively: `rmDomain` leaves exactly the entries not under
`root ++ path`, and `rmDomainById` leaves exactly the entries not under the
resolved directory (attached files and `versioned` subdirectories beneath it
included). -/
theorem rm_removes_recursively (fs fsB fs1 fs2 : FS) (root p p0 : FPath)
    (id : String) (tok : VersionToken) (d0 : Domain)
    (h1 : rmDomain fs root p = .ok fs1)
    (hr : resolvePath fsB id tok = some (p0, d0))
    (h2 : rmDomainById fsB id tok = .ok fs2) :
    fs1 = fs.filter (fun pe => !((root ++ p).isPrefixOf pe.1)) ∧
    fs2 = fsB.filter (fun pe => !(p0.isPrefixOf pe.1)) := by
  constructor
  · rw [rmDomain, fsRm] at h1
    split at h1
    · cases h1; rfl
    · cases h1
  · rw [rmDomainById, rmResourceById, hr] at h2
    cases h2; rfl

theorem fsRm_eraseDir (fs : FS) (p : FPath) :
    fsRm (eraseDir fs p) p = .error .NotFound := by
  rw [fsRm, if_neg]
  intro h
  obtain ⟨pe, hpe, hpre⟩ := List.any_eq_true.mp h
  have := (mem_eraseDir.mp hpe).2
  rw [hpre] at this
  cases this

/-- C8: removal fails `NotFound` when resolution of the requested target
fails, and removal is not idempotent: after a successful removal the same
call fails `NotFound`, for both the path-based and the id-based variant. -/
theorem rm_notFound_not_idempotent (fs fsA fsB fs1 fs2 : FS)
    (root p : FPath) (idN idB : String) (tok : VersionToken)
    (q : FPath) (d : Domain)
    (hres : resolvePath fs idN tok = none)
    (hA : rmDomain fsA root p = .ok fs1)
    (hB : primaryCandidates fsB idB = [(q, d)])
    (hC : rmDomainById fsB idB .latest = .ok fs2) :
    rmDomainById fs idN tok = .error .NotFound ∧
    rmDomain fs1 root p = .error .NotFound ∧
    rmDomainById fs2 idB .latest = .error .NotFound := by
  refine ⟨?_, ?_, ?_⟩
  · rw [rmDomainById, rmResourceById, hres]
  · rw [rmDomain, fsRm] at hA
    split at hA
    · cases hA
      exact fsRm_eraseDir fsA (root ++ p)
    · cases hA
  · rw [rmDomainById, rmResourceById, resolvePath_latest, hB] at hC
    simp only [List.head?_cons] at hC
    cases hC
    rw [rmDomainById, rmResourceById, resolvePath_latest,
      primaryCandidates_eraseDir hB]
    rfl

/-- C6: `domainHasVersion` is a total boolean existence probe on the
resolver: with `latest` it is true exactly when a Primary location for the
id exists, and with a semver range it is true exactly when some Primary or
Archived candidate's declared version satisfies the range. -/
theorem domainHasVersion_spec (fs : FS) (id : String) (r : VRange) :
    (domainHasVersion fs id .latest = true ↔ primaryCandidates fs id ≠ []) ∧
    (domainHasVersion fs id (.range r) = true ↔
      ∃ pd ∈ primaryCandidates fs id ++ archivedCandidates fs id,
        r.satisfies pd.2.version = true) := by
  constructor
  · rw [domainHasVersion, findFileById, resolvePath_latest]
    cases hpc : primaryCandidates fs id with
    | nil => simp
    | cons x xs => simp
  · rw [domainHasVersion, findFileById, resolvePath_range]
    rw [foldl_pick_isSome]
    · constructor
      · intro hne
        by_contra hno
        apply hne
        rw [List.filter_eq_nil_iff]
        intro a ha hsat
        exact hno ⟨a, ha, hsat⟩
      · rintro ⟨pd, hpd, hsat⟩ hnil
        rw [List.filter_eq_nil_iff] at hnil
        exact hnil pd hpd hsat
    · intro b x
      cases hcond : (SemVer.le b.2.version x.2.version && !(b.2.version == x.2.version)) with
      | true => exact ⟨x, by simp [hcond]⟩
      | false => exact ⟨b, by simp [hcond]⟩
    · intro x
      exact ⟨x, rfl⟩

/-- C10: `writeDomain` does not mutate its input.  In the heap view of the
source's copy discipline: after preparing the record it serializes, the
caller's record at `domainAddr` is unchanged, the array its `services` field
references is unchanged, and the shallow copy references a freshly allocated
array holding the deduplicated list (which may differ from the original). -/
theorem writeDomainHeap_input_unchanged (h : JsHeap) (addr a : Nat)
    (haddr : addr < h.objs.length)
    (ha : (h.objs.getD addr noObj).servicesRef = some a)
    (haa : a < h.arrays.length) :
    (writeDomainHeap h addr).1.objs.getD addr noObj = h.objs.getD addr noObj ∧
    (writeDomainHeap h addr).1.arrays.getD a [] = h.arrays.getD a [] ∧
    ((writeDomainHeap h addr).1.objs.getD (writeDomainHeap h addr).2 noObj).servicesRef
      = some h.arrays.length ∧
    (writeDomainHeap h addr).1.arrays.getD h.arrays.length [] =
      uniqueVersions (h.arrays.getD a []) := by
  rw [writeDomainHeap, ha]
  dsimp only
  refine ⟨?_, ?_, ?_, ?_⟩
  · exact List.getD_append _ _ _ _ haddr
  · exact List.getD_append _ _ _ _ haa
  · rw [List.getD_eq_getElem?_getD, List.getElem?_concat_length]
    rfl
  · rw [List.getD_eq_getElem?_getD, List.getElem?_concat_length]
    rfl

/-- C3: `addServiceToDomain` is the read-modify-write sequence
fetch → append-if-absent → remove-old-Primary → write-new-Primary, the
removal being sequenced before the write; and the sequence is not atomic: in
the non-early-return case there is an intermediate state, after the removal
and before the write, in which the domain has no Primary location at all. -/
theorem addServiceToDomain_read_modify_write (fs : FS) (root : FPath)
    (id : String) (service : Reference) (tok : VersionToken)
    (p : FPath) (d : Domain)
    (hp : primaryCandidates fs id = [(p, d)]) :
    (addServiceToDomain fs root id service tok =
      match getDomain fs id tok with
      | .error e => .error e
      | .ok domain0 =>
        let services0 :=
          match domain0.services with
          | none => []
          | some l => l
        if services0.any (fun s => s.id == service.id && s.version == service.version)
        then .ok fs
        else
          match rmDomainById fs id tok with
          | .error e => .error e
          | .ok fs1 =>
              writeDomain fs1 root
                { domain0 with services := some (services0 ++ [service]) } none false) ∧
    (∃ fs1, rmDomainById fs id .latest = .ok fs1 ∧
      getDomain fs1 id .latest = .error .NotFound) := by
  constructor
  · rfl
  · refine ⟨eraseDir fs p, ?_, ?_⟩
    · rw [rmDomainById, rmResourceById, resolvePath_latest, hp]
      rfl
    · rw [getDomain, getResource, resolvePath_latest, primaryCandidates_eraseDir hp]
      rfl

theorem addService_write_state (fs fs1 : FS) (root : FPath) (id : String)
    (d : Domain) (l1 : List Reference)
    (hp : primaryCandidates fs id = [(canonicalPath root id, d)])
    (hid : d.id = id)
    (hver : isVersionedPath (canonicalPath root id) = false)
    (hwrite : writeDomain (eraseDir fs (canonicalPath root id)) root
      { d with services := some l1 } none false = .ok fs1) :
    fs1 = eraseDir fs (canonicalPath root id) ++
      [(canonicalPath root id,
        Entry.doc { d with services := some (uniqueVersions l1) })] ∧
    getDomain fs1 id .latest =
      .ok { d with services := some (uniqueVersions l1) } := by
  have ht : targetPath root none d.id = canonicalPath root id := by
    rw [show targetPath root none d.id = canonicalPath root d.id from rfl, hid]
  have hc : containsResource (eraseDir fs (canonicalPath root id))
      (canonicalPath root id) = false :=
    containsResource_eraseDir fs (canonicalPath root id)
  rw [writeDomain] at hwrite
  dsimp only at hwrite
  rw [writeResource] at hwrite
  dsimp only at hwrite
  rw [ht, hc] at hwrite
  simp only [Bool.false_eq_true, if_false] at hwrite
  have hfs1 : fs1 = eraseDir fs (canonicalPath root id) ++
      [(canonicalPath root id,
        Entry.doc { d with services := some (uniqueVersions l1) })] := by
    cases hwrite; rfl
  refine ⟨hfs1, ?_⟩
  have hid2 : ({ d with services := some (uniqueVersions l1) } : Domain).id = id := hid
  have hpc1 : primaryCandidates fs1 id =
      [(canonicalPath root id, { d with services := some (uniqueVersions l1) })] := by
    rw [hfs1, primaryCandidates_append, primaryCandidates_eraseDir hp,
      primaryCandidates_single hid2 hver, List.nil_append]
  rw [getDomain, getResource, resolvePath_latest, hpc1]
  rfl

theorem addService_second_call (fs1 fs2 : FS) (root : FPath) (id : String)
    (service : Reference) (d1 : Domain) (l1 : List Reference)
    (hsvc : service ∈ l1)
    (hget1 : getDomain fs1 id .latest =
      .ok { d1 with services := some (uniqueVersions l1) })
    (h2 : addServiceToDomain fs1 root id service .latest = .ok fs2) :
    fs2 = fs1 ∧
    getDomain fs2 id .latest =
      .ok { d1 with services := some (uniqueVersions l1) } ∧
    (uniqueVersions l1).count service = 1 := by
  have hmem : service ∈ uniqueVersions l1 := by
    obtain ⟨b, hb, hsb⟩ := uniqueVersions_covers l1 service hsvc
    rw [(sameRef_iff_eq _ _).mp hsb]
    exact hb
  have hany : (uniqueVersions l1).any
      (fun s => s.id == service.id && s.version == service.version) = true :=
    List.any_eq_true.mpr ⟨service, hmem, sameRef_self service⟩
  rw [addServiceToDomain, hget1] at h2
  dsimp only at h2
  simp only [hany, if_true] at h2
  cases h2
  exact ⟨rfl, hget1,
    List.count_eq_one_of_mem (uniqueVersions_nodup l1) hmem⟩

/-- C1: calling `addServiceToDomain` twice with identical arguments leaves
exactly one entry equal to the given `{id, version}` reference in the
domain's service list, and the second call is a no-op on the catalog
state. -/
theorem addServiceToDomain_twice (fs fs1 fs2 : FS) (root : FPath)
    (id : String) (service : Reference) (d : Domain)
    (hp : primaryCandidates fs id = [(canonicalPath root id, d)])
    (hnd : (d.services.getD []).Nodup)
    (h1 : addServiceToDomain fs root id service .latest = .ok fs1)
    (h2 : addServiceToDomain fs1 root id service .latest = .ok fs2) :
    fs2 = fs1 ∧
    ∃ d', getDomain fs2 id .latest = .ok d' ∧
      (d'.services.getD []).count service = 1 := by
  have hmem0 : (canonicalPath root id, d) ∈ primaryCandidates fs id := by
    rw [hp]; exact List.mem_cons_self _ _
  have hid : d.id = id := (mem_docsWithId.mp (mem_primaryCandidates.mp hmem0).1).2
  have hver : isVersionedPath (canonicalPath root id) = false :=
    (mem_primaryCandidates.mp hmem0).2
  have hg : getDomain fs id .latest = .ok d := by
    rw [getDomain, getResource, resolvePath_latest, hp]; rfl
  have hrm : rmDomainById fs id .latest = .ok (eraseDir fs (canonicalPath root id)) := by
    rw [rmDomainById, rmResourceById, resolvePath_latest, hp]; rfl
  rw [addServiceToDomain, hg] at h1
  dsimp only at h1
  cases hsv : d.services with
  | none =>
    rw [hsv] at h1
    dsimp only at h1
    rw [hrm] at h1
    dsimp only at h1
    obtain ⟨hfs1, hget1⟩ :=
      addService_write_state fs fs1 root id d ([] ++ [service]) hp hid hver h1
    obtain ⟨hfs2, hget2, hcount⟩ :=
      addService_second_call fs1 fs2 root id service d ([] ++ [service])
        (by simp) hget1 h2
    exact ⟨hfs2, { d with services := some (uniqueVersions ([] ++ [service])) },
      hget2, by simpa using hcount⟩
  | some l =>
    rw [hsv] at h1 hnd
    simp only [Option.getD_some] at hnd
    dsimp only at h1
    by_cases hc : l.any (fun s => s.id == service.id && s.version == service.version) = true
    · simp only [hc, if_true] at h1
      cases h1
      rw [addServiceToDomain, hg] at h2
      dsimp only at h2
      rw [hsv] at h2
      dsimp only at h2
      simp only [hc, if_true] at h2
      cases h2
      refine ⟨rfl, d, hg, ?_⟩
      rw [hsv]
      simp only [Option.getD_some]
      obtain ⟨s, hsmem, hspred⟩ := List.any_eq_true.mp hc
      have : s = service := (sameRef_iff_eq _ _).mp hspred
      subst this
      exact List.count_eq_one_of_mem hnd hsmem
    · simp only [hc, if_false] at h1
      rw [hrm] at h1
      dsimp only at h1
      obtain ⟨hfs1, hget1⟩ :=
        addService_write_state fs fs1 root id d (l ++ [service]) hp hid hver h1
      obtain ⟨hfs2, hget2, hcount⟩ :=
        addService_second_call fs1 fs2 root id service d (l ++ [service])
          (by simp) hget1 h2
      exact ⟨hfs2, { d with services := some (uniqueVersions (l ++ [service])) },
        hget2, by simpa using hcount⟩

theorem bool_eq_false_of_not {b : Bool} (h : ¬b = true) : b = false := by
  cases b
  · rfl
  · exact absurd rfl h

theorem isVersionedPath_of_mem {p : FPath} (h : "versioned" ∈ p) :
    isVersionedPath p = true := by
  simpa [isVersionedPath] using h

theorem isPrefixOf_append_singleton (p : FPath) (x : String) :
    (p ++ [x]).isPrefixOf p = false := by
  by_contra h
  simp only [Bool.not_eq_false] at h
  have := List.IsPrefix.length_le (List.isPrefixOf_iff_prefix.mp h)
  simp at this

theorem versioned_prefix_isVersioned {p q : FPath}
    (h : (p ++ ["versioned"]).isPrefixOf q = true) :
    isVersionedPath q = true := by
  obtain ⟨t, ht⟩ := List.isPrefixOf_iff_prefix.mp h
  rw [← ht]
  exact isVersionedPath_of_mem (by simp)

theorem archiveMove_then (p : FPath) (v : String) (q : FPath) (e : Entry)
    (h1 : p.isPrefixOf q = true)
    (h2 : (p ++ ["versioned"]).isPrefixOf q = false) :
    archiveMove p v (q, e) = (p ++ ["versioned", v] ++ q.drop p.length, e) := by
  simp [archiveMove, h1, h2]

theorem archiveMove_keep₁ (p : FPath) (v : String) (q : FPath) (e : Entry)
    (h1 : p.isPrefixOf q = false) :
    archiveMove p v (q, e) = (q, e) := by
  simp [archiveMove, h1]

theorem archiveMove_keep₂ (p : FPath) (v : String) (q : FPath) (e : Entry)
    (h2 : (p ++ ["versioned"]).isPrefixOf q = true) :
    archiveMove p v (q, e) = (q, e) := by
  simp [archiveMove, h2]

theorem versionResource_ok (fs fs' : FS) (id : String) (p : FPath) (d : Domain)
    (hp : primaryCandidates fs id = [(p, d)])
    (hok : versionResource fs id = .ok fs') :
    fs' = fs.map (archiveMove p d.version.str) := by
  rw [versionResource, resolvePath_latest, hp] at hok
  simp only [List.head?_cons] at hok
  split at hok
  · cases hok
  · cases hok; rfl

/-- C5: archiving a domain that has a (unique) Primary location moves it to
the `versioned/<version>` destination: afterwards resolving the id with
`latest` fails `NotFound`, while resolving the id with the archived version
succeeds and returns the pre-archive content unchanged. -/
theorem versionDomain_latest_archived (fs fs' : FS) (id : String)
    (p : FPath) (d : Domain)
    (hp : primaryCandidates fs id = [(p, d)])
    (ha : ∀ pd ∈ archivedCandidates fs id, pd.2.version ≠ d.version)
    (hok : versionDomain fs id = .ok fs') :
    getDomain fs' id .latest = .error .NotFound ∧
    getDomain fs' id (.exact d.version) = .ok d := by
  have hmem0 : (p, d) ∈ primaryCandidates fs id := by
    rw [hp]; exact List.mem_cons_self _ _
  have hdfs : (p, Entry.doc d) ∈ fs :=
    (mem_docsWithId.mp (mem_primaryCandidates.mp hmem0).1).1
  have hid : d.id = id := (mem_docsWithId.mp (mem_primaryCandidates.mp hmem0).1).2
  have hverp : isVersionedPath p = false := (mem_primaryCandidates.mp hmem0).2
  have hfs' : fs' = fs.map (archiveMove p d.version.str) :=
    versionResource_ok fs fs' id p d hp hok
  subst hfs'
  have hprim : primaryCandidates (fs.map (archiveMove p d.version.str)) id = [] := by
    rw [List.eq_nil_iff_forall_not_mem]
    intro pd hpd
    obtain ⟨hdoc, hnv⟩ := mem_primaryCandidates.mp hpd
    obtain ⟨hmemm, hpid⟩ := mem_docsWithId.mp hdoc
    obtain ⟨⟨q, e⟩, hpe, hf⟩ := List.mem_map.mp hmemm
    by_cases h1 : p.isPrefixOf q = true
    · by_cases h2 : (p ++ ["versioned"]).isPrefixOf q = true
      · rw [archiveMove_keep₂ _ _ _ _ h2] at hf
        simp only [Prod.mk.injEq] at hf
        rw [← hf.1] at hnv
        rw [versioned_prefix_isVersioned h2] at hnv
        cases hnv
      · have h2' : (p ++ ["versioned"]).isPrefixOf q = false := bool_eq_false_of_not h2
        rw [archiveMove_then _ _ _ _ h1 h2'] at hf
        simp only [Prod.mk.injEq] at hf
        rw [← hf.1] at hnv
        rw [isVersionedPath_of_mem (by simp)] at hnv
        cases hnv
    · have h1' : p.isPrefixOf q = false := bool_eq_false_of_not h1
      rw [archiveMove_keep₁ _ _ _ _ h1'] at hf
      simp only [Prod.mk.injEq] at hf
      obtain ⟨hq, he⟩ := hf
      subst hq; subst he
      have hpc : pd ∈ primaryCandidates fs id :=
        mem_primaryCandidates.mpr ⟨mem_docsWithId.mpr ⟨hpe, hpid⟩, hnv⟩
      rw [hp] at hpc
      simp at hpc
      rw [hpc] at h1'
      simp [isPrefixOf_self] at h1'
  have hdst_mem : (p ++ ["versioned", d.version.str], Entry.doc d) ∈
      fs.map (archiveMove p d.version.str) := by
    refine List.mem_map.mpr ⟨(p, Entry.doc d), hdfs, ?_⟩
    rw [archiveMove_then _ _ _ _ (isPrefixOf_self p)
      (isPrefixOf_append_singleton p "versioned")]
    simp [List.drop_length]
  have harch_mem : (p ++ ["versioned", d.version.str], d) ∈
      archivedCandidates (fs.map (archiveMove p d.version.str)) id :=
    mem_archivedCandidates.mpr ⟨mem_docsWithId.mpr ⟨hdst_mem, hid⟩,
      isVersionedPath_of_mem (by simp)⟩
  have huniq : ∀ pd ∈ archivedCandidates (fs.map (archiveMove p d.version.str)) id,
      (pd.2.version == d.version) = true → pd.2 = d := by
    intro pd hpd htest
    have hveq : pd.2.version = d.version := by simpa using htest
    obtain ⟨hdoc, hiv⟩ := mem_archivedCandidates.mp hpd
    obtain ⟨hmemm, hpid⟩ := mem_docsWithId.mp hdoc
    obtain ⟨⟨q, e⟩, hpe, hf⟩ := List.mem_map.mp hmemm
    by_cases h1 : p.isPrefixOf q = true
    · by_cases h2 : (p ++ ["versioned"]).isPrefixOf q = true
      · rw [archiveMove_keep₂ _ _ _ _ h2] at hf
        simp only [Prod.mk.injEq] at hf
        obtain ⟨hq, he⟩ := hf
        subst hq; subst he
        have : pd ∈ archivedCandidates fs id :=
          mem_archivedCandidates.mpr ⟨mem_docsWithId.mpr ⟨hpe, hpid⟩, hiv⟩
        exact absurd hveq (ha pd this)
      · have h2' : (p ++ ["versioned"]).isPrefixOf q = false := bool_eq_false_of_not h2
        rw [archiveMove_then _ _ _ _ h1 h2'] at hf
        simp only [Prod.mk.injEq] at hf
        obtain ⟨hq, he⟩ := hf
        subst he
        by_cases h3 : isVersionedPath q = true
        · have : (q, pd.2) ∈ archivedCandidates fs id :=
            mem_archivedCandidates.mpr ⟨mem_docsWithId.mpr ⟨hpe, hpid⟩, h3⟩
          exact absurd hveq (ha (q, pd.2) this)
        · have h3' : isVersionedPath q = false := bool_eq_false_of_not h3
          have hpc : (q, pd.2) ∈ primaryCandidates fs id :=
            mem_primaryCandidates.mpr ⟨mem_docsWithId.mpr ⟨hpe, hpid⟩, h3'⟩
          rw [hp] at hpc
          simp at hpc
          exact hpc.2
    · have h1' : p.isPrefixOf q = false := bool_eq_false_of_not h1
      rw [archiveMove_keep₁ _ _ _ _ h1'] at hf
      simp only [Prod.mk.injEq] at hf
      obtain ⟨hq, he⟩ := hf
      subst hq; subst he
      have : pd ∈ archivedCandidates fs id :=
        mem_archivedCandidates.mpr ⟨mem_docsWithId.mpr ⟨hpe, hpid⟩, hiv⟩
      exact absurd hveq (ha pd this)
  refine ⟨?_, ?_⟩
  · rw [getDomain, getResource, resolvePath_latest, hprim]
    rfl
  · rw [getDomain, getResource, resolvePath_exact, hprim, List.nil_append]
    have hsome : ((archivedCandidates (fs.map (archiveMove p d.version.str)) id).find?
        (fun pd => pd.2.version == d.version)).isSome = true :=
      List.find?_isSome.mpr ⟨(p ++ ["versioned", d.version.str], d), harch_mem, by simp⟩
    obtain ⟨pd0, hfind⟩ := Option.isSome_iff_exists.mp hsome
    rw [hfind]
    dsimp only
    have htst := List.find?_some hfind
    rw [huniq pd0 (List.mem_of_find?_eq_some hfind) htst]

/-!
## Concrete witnesses

A small catalog under root `cat` exercising each theorem: a domain `A`
(version 1.0.0) at its canonical Primary path, a service reference `S`, and a
domain `B` whose services list carries a duplicate. -/

def wRoot : FPath := ["cat"]

def wD : Domain :=
  { id := "A", name := "A", version := ⟨1, 0, 0⟩, summary := "s",
    markdown := "m", services := none }

def wFS : FS := [(canonicalPath wRoot "A", Entry.doc wD)]

def wSvc : Reference := ⟨"S", ⟨2, 0, 0⟩⟩

def wD1 : Domain := { wD with services := some [wSvc] }

def wFS1 : FS := [(canonicalPath wRoot "A", Entry.doc wD1)]

def wR1 : Reference := ⟨"S", ⟨1, 0, 0⟩⟩

def wR2 : Reference := ⟨"T", ⟨1, 0, 0⟩⟩

def wDup : Domain :=
  { id := "B", name := "B", version := ⟨1, 0, 0⟩, summary := "s",
    markdown := "m", services := some [wR1, wR1, wR2] }

def wFS2 : FS :=
  [(canonicalPath wRoot "B", Entry.doc { wDup with services := some [wR1, wR2] })]

def wFS5 : FS :=
  [(canonicalPath wRoot "A" ++ ["versioned", "1.0.0"], Entry.doc wD)]

def wHeap : JsHeap :=
  { objs := [⟨"A", "A", ⟨1, 0, 0⟩, "s", "m", some 0⟩], arrays := [[wR1, wR1]] }

/-- Witness for C1 on the concrete catalog. -/
theorem addServiceToDomain_twice_witness :
    primaryCandidates wFS "A" = [(canonicalPath wRoot "A", wD)] ∧
    ((wD.services).getD []).Nodup ∧
    addServiceToDomain wFS wRoot "A" wSvc .latest = .ok wFS1 ∧
    addServiceToDomain wFS1 wRoot "A" wSvc .latest = .ok wFS1 ∧
    (wFS1 = wFS1 ∧ ∃ d', getDomain wFS1 "A" .latest = .ok d' ∧
      ((d'.services).getD []).count wSvc = 1) :=
  ⟨by decide, by decide, by rfl, by rfl,
    addServiceToDomain_twice wFS wFS1 wFS1 wRoot "A" wSvc wD
      (by decide) (by decide) (by rfl) (by rfl)⟩

/-- Witness for C2 on the concrete catalog. -/
theorem writeDomain_dedups_services_witness :
    wDup.services = some [wR1, wR1, wR2] ∧
    writeDomain [] wRoot wDup none false = .ok wFS2 ∧
    (targetPath wRoot none wDup.id,
      Entry.doc { wDup with services := some (uniqueVersions [wR1, wR1, wR2]) }) ∈ wFS2 :=
  ⟨rfl, by rfl,
    (writeDomain_dedups_services [] wFS2 wRoot wDup none false [wR1, wR1, wR2]
      rfl (by rfl)).1⟩

/-- Witness for C3 on the concrete catalog. -/
theorem addServiceToDomain_rmw_witness :
    primaryCandidates wFS "A" = [(canonicalPath wRoot "A", wD)] ∧
    (∃ fs1, rmDomainById wFS "A" .latest = .ok fs1 ∧
      getDomain fs1 "A" .latest = .error .NotFound) :=
  ⟨by decide,
    (addServiceToDomain_read_modify_write wFS wRoot "A" wSvc .latest
      (canonicalPath wRoot "A") wD (by decide)).2⟩

/-- Witness for C4 on the concrete catalog. -/
theorem writeDomain_alreadyExists_override_witness :
    containsResource wFS (targetPath wRoot none wD.id) = true ∧
    writeDomain wFS wRoot wD none false = .error .AlreadyExists :=
  ⟨by decide, (writeDomain_alreadyExists_override wFS wRoot wD none (by decide)).1⟩

/-- Witness for C5 on the concrete catalog. -/
theorem versionDomain_latest_archived_witness :
    primaryCandidates wFS "A" = [(canonicalPath wRoot "A", wD)] ∧
    (∀ pd ∈ archivedCandidates wFS "A", pd.2.version ≠ wD.version) ∧
    versionDomain wFS "A" = .ok wFS5 ∧
    (getDomain wFS5 "A" .latest = .error .NotFound ∧
      getDomain wFS5 "A" (.exact wD.version) = .ok wD) :=
  ⟨by decide, by decide, by rfl,
    versionDomain_latest_archived wFS wFS5 "A" (canonicalPath wRoot "A") wD
      (by decide) (by decide) (by rfl)⟩

/-- Witness for C7 on the concrete catalog. -/
theorem rm_removes_recursively_witness :
    rmDomain wFS wRoot ["domains", "A"] = .ok [] ∧
    resolvePath wFS "A" .latest = some (canonicalPath wRoot "A", wD) ∧
    rmDomainById wFS "A" .latest = .ok [] ∧
    (([] : FS) = wFS.filter (fun pe => !((wRoot ++ ["domains", "A"]).isPrefixOf pe.1)) ∧
      ([] : FS) = wFS.filter (fun pe => !((canonicalPath wRoot "A").isPrefixOf pe.1))) :=
  ⟨by rfl, by decide, by rfl,
    rm_removes_recursively wFS wFS [] [] wRoot ["domains", "A"]
      (canonicalPath wRoot "A") "A" .latest wD (by rfl) (by decide) (by rfl)⟩

/-- Witness for C8 on the concrete catalog. -/
theorem rm_notFound_not_idempotent_witness :
    resolvePath ([] : FS) "Z" .latest = none ∧
    rmDomain wFS wRoot ["domains", "A"] = .ok [] ∧
    primaryCandidates wFS "A" = [(canonicalPath wRoot "A", wD)] ∧
    rmDomainById wFS "A" .latest = .ok [] ∧
    (rmDomainById ([] : FS) "Z" .latest = .error .NotFound ∧
      rmDomain [] wRoot ["domains", "A"] = .error .NotFound ∧
      rmDomainById [] "A" .latest = .error .NotFound) :=
  ⟨by rfl, by rfl, by decide, by rfl,
    rm_notFound_not_idempotent [] wFS wFS [] [] wRoot ["domains", "A"] "Z" "A"
      .latest (canonicalPath wRoot "A") wD (by rfl) (by rfl) (by decide) (by rfl)⟩

/-- Witness for C9 on the concrete catalog. -/
theorem addServiceToDomain_early_return_witness :
    getDomain wFS1 "A" .latest = .ok wD1 ∧
    ((wD1.services).getD []).any
      (fun s => s.id == wSvc.id && s.version == wSvc.version) = true ∧
    addServiceToDomain wFS1 wRoot "A" wSvc .latest = .ok wFS1 :=
  ⟨by rfl, by decide,
    addServiceToDomain_early_return wFS1 wRoot "A" wSvc .latest wD1
      (by rfl) (by decide)⟩

/-- Witness for C10 on the concrete heap, whose stored services array holds a
duplicate so the serialized list differs from the stored one. -/
theorem writeDomainHeap_input_unchanged_witness :
    0 < wHeap.objs.length ∧
    (wHeap.objs.getD 0 noObj).servicesRef = some 0 ∧
    0 < wHeap.arrays.length ∧
    ((writeDomainHeap wHeap 0).1.objs.getD 0 noObj = wHeap.objs.getD 0 noObj ∧
      (writeDomainHeap wHeap 0).1.arrays.getD 0 [] = wHeap.arrays.getD 0 [] ∧
      ((writeDomainHeap wHeap 0).1.objs.getD (writeDomainHeap wHeap 0).2 noObj).servicesRef
        = some wHeap.arrays.length ∧
      (writeDomainHeap wHeap 0).1.arrays.getD wHeap.arrays.length [] =
        uniqueVersions (wHeap.arrays.getD 0 [])) :=
  ⟨by decide, by rfl, by decide,
    writeDomainHeap_input_unchanged wHeap 0 0 (by decide) (by rfl) (by decide)⟩
